import Mathlib

/-!
# WorkThreadPool (src/common/WorkQueue.h)

A shallow embedding of the worker thread pool of `WorkQueue.h` and the
properties of its specification.

* Pointers (`_WorkQueue*`, `T*`) are natural numbers; the null `T*` is `none`.
* The five pure-virtual hooks of `WorkQueue<T>` are a parameter: a table
  `H : Ptr → Hooks σ` giving the hooks of the object at each address, acting
  on that object's own storage `σ`.
* Threads interleave at lock granularity: one step of the system is one
  stretch of code that a thread runs between two releases of `_lock`.
* `add_work_queue` and `remove_work_queue` take no lock; a call of either is
  a step of its own, so `work_queues` changes only between the stretches that
  other threads run with the lock held.
* A thread that waits on a condition may wake at any time.
* `last_work_queue` (`int`), `tries` (`int`) and `i` (`unsigned`) are natural
  numbers: each of them stays between zero and the length of `work_queues`,
  which is taken to fit these types.
-/

namespace WorkQueueModel

/-- Address of a registered queue object (`_WorkQueue*`). -/
abbrev Ptr := Nat

/-- Address of a work item (`T*`), never null. -/
abbrev Item := Nat

/-- The two condition variables of a pool: `_cond` and `_wait_cond`. -/
inductive Cond where
  | _cond
  | _wait_cond
  deriving DecidableEq, Repr

/-- What a thread does that another thread, or the owner of a queue, can see. -/
inductive Event where
  | lock
  | unlock
  | signal (c : Cond)
  | signal_one (c : Cond)
  | wait (c : Cond)
  | push_back (wq : Ptr)
  | erase (wq : Ptr)
  | call_enqueue (wq : Ptr) (item : Item) (r : Bool)
  | call_dequeue_item (wq : Ptr) (item : Item)
  | call_dequeue (wq : Ptr) (r : Option Item)
  | call_process (wq : Ptr) (item : Item)
  | call_clear (wq : Ptr)
  deriving DecidableEq, Repr

/-- Ways in which a step does not yield a next state. -/
inductive Err where
  /-- the scheduled thread is not at a point where it can take that step -/
  | blocked
  /-- an `assert` failed -/
  | assertion
  /-- `entry` took `% 0` or read `work_queues` outside its bounds -/
  | entry_index
  /-- `remove_work_queue` read `work_queues` outside its bounds -/
  | remove_index
  deriving DecidableEq, Repr

/-- The pure-virtual hooks of `WorkQueue<T>` (lines 40-44) except `_process`,
which runs without the lock and reaches the pool only through the public
entry points. Each acts on the storage `σ` of its own queue object. -/
structure Hooks (σ : Type) where
  /-- the hook `bool _enqueue(T*)` -/
  _enqueue : Item → σ → Bool × σ
  /-- the hook `void _dequeue(T*)` -/
  _dequeue_item : Item → σ → σ
  /-- the hook `T* _dequeue()` -/
  _dequeue : σ → Option Item × σ
  /-- the hook `void _clear()` -/
  _clear : σ → σ

/-! ## Registration (lines 163-174) -/

/-- Line 164: `work_queues.push_back(wq)`. -/
def add_work_queue (work_queues : List Ptr) (wq : Ptr) : List Ptr :=
  work_queues ++ [wq]

/-- Lines 168-169: `while (work_queues[i] != wq) i++;`. The loop runs at most
`fuel` times; `remove_work_queue` starts it with more fuel than the list has
entries. Reading outside the list is an error. -/
def remove_find (work_queues : List Ptr) (wq : Ptr) : Nat → Nat → Except Err Nat
  | 0, _ => .error .remove_index
  | fuel + 1, i =>
    match work_queues.get? i with
    | none => .error .remove_index
    | some q => if q ≠ wq then remove_find work_queues wq fuel (i + 1) else .ok i

/-- Lines 170-171: `for (...; i < work_queues.size(); i++) work_queues[i-1] =
work_queues[i];`, entered after the `i++` of the loop header. Returns the
list and the final `i`. -/
def remove_shift : Nat → List Ptr → Nat → List Ptr × Nat
  | 0, work_queues, i => (work_queues, i)
  | fuel + 1, work_queues, i =>
    match work_queues.get? i with
    | some q => remove_shift fuel (work_queues.set (i - 1) q) (i + 1)
    | none => (work_queues, i)

/-- Lines 166-174: `remove_work_queue(wq)`. -/
def remove_work_queue (work_queues : List Ptr) (wq : Ptr) : Except Err (List Ptr) :=
  match remove_find work_queues wq (work_queues.length + 1) 0 with
  | .error e => .error e
  | .ok i =>
    let r := remove_shift work_queues.length work_queues (i + 1)
    -- assert(i == work_queues.size());
    if r.2 = r.1.length then
      -- work_queues.resize(i-1);
      .ok (r.1.take (r.2 - 1))
    else .error .assertion

/-! ## State -/

/-- Where a worker thread (`WorkThread`, lines 101-108) stands between two
steps of the system. -/
inductive Pc where
  /-- constructed by `set_num_threads`, `create()` not yet called -/
  | created
  /-- created by `start()`, about to take `_lock` at line 115 -/
  | started
  /-- inside `_try_process` with the lock released (lines 75-77): running the
  `_process` hook; `after` is what the thread logs when the hook is over -/
  | in_process (after : List Event)
  /-- inside `_cond.Wait(_lock)` at line 141, lock released -/
  | waiting
  /-- returned from `entry` -/
  | exited
  deriving DecidableEq, Repr

/-- The fields of `WorkThreadPool` (lines 23-26, 96-97, 110-111) together with
what the threads around it hold: the storage of the queue objects, the point
each thread has reached, and the log of events. `_lock` is held by the thread
taking a step, and by none between steps. -/
structure WorkThreadPool (σ : Type) where
  _stop : Bool
  _pause : Bool
  work_queues : List Ptr
  last_work_queue : Nat
  processing : Int
  _threads : List Pc
  /-- the storage of the queue object at each address -/
  heap : Ptr → σ
  /-- the number of threads inside `pause()`, in `_wait_cond.Wait(_lock)` at
  line 224 -/
  pausing : Nat
  /-- the number of threads inside `stop()`, joining the workers (lines 194-197) -/
  stopping : Nat
  /-- history: a call of `pause()` has returned and `unpause()` has not run since -/
  quiesced : Bool
  /-- history: the events so far, oldest first -/
  trace : List Event

/-- Lines 148-155: `WorkThreadPool(name, n)`; `set_num_threads(n)` makes `n`
thread objects. `heap` is the storage of the queue objects that exist. -/
def WorkThreadPool.construct {σ : Type} (n : Nat) (heap : Ptr → σ) : WorkThreadPool σ :=
  { _stop := false
    _pause := false
    work_queues := []
    last_work_queue := 0
    processing := 0
    _threads := List.replicate n Pc.created
    heap := heap
    pausing := 0
    stopping := 0
    quiesced := false
    trace := [] }

/-- The number of worker threads that are running a `_process` hook. -/
def busy : List Pc → Nat
  | [] => 0
  | Pc.in_process _ :: l => busy l + 1
  | _ :: l => busy l

/-! ## WorkQueue<T> (lines 36-93) -/

/-- Lines 47-49: the constructor of `WorkQueue`, for the object at `wq`. -/
def WorkQueue.construct {σ : Type} (wq : Ptr) (s : WorkThreadPool σ) : WorkThreadPool σ :=
  { s with
    work_queues := add_work_queue s.work_queues wq
    trace := s.trace ++ [Event.push_back wq] }

/-- Lines 50-52: the destructor of `WorkQueue`, for the object at `wq`. -/
def WorkQueue.destroy {σ : Type} (wq : Ptr) (s : WorkThreadPool σ) :
    Except Err (WorkThreadPool σ) :=
  match remove_work_queue s.work_queues wq with
  | .error e => .error e
  | .ok l => .ok { s with work_queues := l, trace := s.trace ++ [Event.erase wq] }

/-- Lines 54-60: `queue(item)` on the object at `wq`; the value returned and
the state after. -/
def WorkQueue.queue {σ : Type} (H : Ptr → Hooks σ) (wq : Ptr) (item : Item)
    (s : WorkThreadPool σ) : Bool × WorkThreadPool σ :=
  -- bool r = _enqueue(item);
  let r := (H wq)._enqueue item (s.heap wq)
  (r.1, { s with
    heap := Function.update s.heap wq r.2
    trace := s.trace ++ [Event.lock, Event.call_enqueue wq item r.1,
      Event.signal_one Cond._cond, Event.unlock] })

/-- Lines 61-65: `dequeue(item)` on the object at `wq`. -/
def WorkQueue.dequeue {σ : Type} (H : Ptr → Hooks σ) (wq : Ptr) (item : Item)
    (s : WorkThreadPool σ) : WorkThreadPool σ :=
  { s with
    heap := Function.update s.heap wq ((H wq)._dequeue_item item (s.heap wq))
    trace := s.trace ++ [Event.lock, Event.call_dequeue_item wq item, Event.unlock] }

/-- Lines 66-70: `clear()` on the object at `wq`. -/
def WorkQueue.clear {σ : Type} (H : Ptr → Hooks σ) (wq : Ptr)
    (s : WorkThreadPool σ) : WorkThreadPool σ :=
  { s with
    heap := Function.update s.heap wq ((H wq)._clear (s.heap wq))
    trace := s.trace ++ [Event.lock, Event.call_clear wq, Event.unlock] }

/-- What one call of `_try_process` did. -/
structure TryProcess (σ : Type) where
  /-- the value returned -/
  ret : Bool
  /-- the storage of the queue after the call -/
  st : σ
  /-- the events from the entry to the first release of the lock, or to the
  return when the lock is not released -/
  held : List Event
  /-- the events after the lock was released -/
  released : List Event

/-- Lines 72-81: `_try_process()` on the object at `wq` with hooks `h` and
storage `st`, entered with the lock held. -/
def WorkQueue._try_process {σ : Type} (h : Hooks σ) (wq : Ptr) (st : σ) : TryProcess σ :=
  -- T *item = _dequeue();
  match h._dequeue st with
  | (some item, st1) =>
    { ret := true
      st := st1
      held := [Event.call_dequeue wq (some item), Event.unlock]
      released := [Event.call_process wq item, Event.lock] }
  | (none, st1) =>
    { ret := false
      st := st1
      held := [Event.call_dequeue wq none]
      released := [] }

/-! ## The worker loop (lines 114-145) -/

/-- Lines 122-136: `while (tries--) ...` with the lock held. The result is the
state when the lock is next released or the loop is left, and, when a
`_try_process` released the lock, the events that call has still to log. -/
def WorkThreadPool.entry_sweep {σ : Type} (H : Ptr → Hooks σ) :
    Nat → WorkThreadPool σ → Except Err (WorkThreadPool σ × Option (List Event))
  | 0, s => .ok (s, none)
  | tries + 1, s =>
    -- last_work_queue++; last_work_queue %= work_queues.size();
    if s.work_queues.length = 0 then .error .entry_index
    else
      let c := (s.last_work_queue + 1) % s.work_queues.length
      -- wq = work_queues[last_work_queue];
      match s.work_queues.get? c with
      | none => .error .entry_index
      | some wq =>
        -- processing++; did = wq->_try_process();
        let r := WorkQueue._try_process (H wq) wq (s.heap wq)
        let s1 : WorkThreadPool σ :=
          { s with
            last_work_queue := c
            processing := s.processing + 1
            heap := Function.update s.heap wq r.st
            trace := s.trace ++ r.held }
        if r.ret = true then .ok (s1, some r.released)
        else
          -- processing--; neither `if (did ...)` fires
          WorkThreadPool.entry_sweep H tries { s1 with processing := s1.processing - 1 }

/-- Lines 117-142, from the test of the outer `while` with the lock held to
the next release of the lock by thread `i`. -/
def WorkThreadPool.entry_loop {σ : Type} (H : Ptr → Hooks σ) (i : Nat)
    (s : WorkThreadPool σ) : Except Err (WorkThreadPool σ) :=
  if s._stop = true then
    -- line 144
    .ok { s with _threads := s._threads.set i Pc.exited, trace := s.trace ++ [Event.unlock] }
  else if s._pause = false ∧ s.work_queues.length ≠ 0 then
    -- int tries = work_queues.size();
    match WorkThreadPool.entry_sweep H s.work_queues.length s with
    | .error e => .error e
    | .ok (s1, some after) => .ok { s1 with _threads := s1._threads.set i (Pc.in_process after) }
    | .ok (s1, none) =>
      .ok { s1 with
        _threads := s1._threads.set i Pc.waiting
        trace := s1.trace ++ [Event.wait Cond._cond] }
  else
    .ok { s with
      _threads := s._threads.set i Pc.waiting
      trace := s.trace ++ [Event.wait Cond._cond] }

/-- Lines 76-78 and 130-138: thread `i` comes back from `_process`, takes the
lock, `_try_process` returns true, and the loop goes on. -/
def WorkThreadPool.entry_resume {σ : Type} (H : Ptr → Hooks σ) (i : Nat) (after : List Event)
    (s : WorkThreadPool σ) : Except Err (WorkThreadPool σ) :=
  -- processing--; if (did && _pause) _wait_cond.Signal(); if (did) break; if (did) continue;
  WorkThreadPool.entry_loop H i
    { s with
      processing := s.processing - 1
      trace := s.trace ++ after ++
        (if s._pause = true then [Event.signal Cond._wait_cond] else []) }

/-- One step of worker thread `i` in `entry()`: from the point where it takes
the lock to the point where it next releases it. A thread in `_cond.Wait` may
wake at any time. -/
def WorkThreadPool.entry {σ : Type} (H : Ptr → Hooks σ) (i : Nat)
    (s : WorkThreadPool σ) : Except Err (WorkThreadPool σ) :=
  match s._threads.get? i with
  | some Pc.started => WorkThreadPool.entry_loop H i { s with trace := s.trace ++ [Event.lock] }
  | some (Pc.in_process after) => WorkThreadPool.entry_resume H i after s
  | some Pc.waiting => WorkThreadPool.entry_loop H i s
  | _ => .error .blocked

/-! ## The pool's entry points (lines 183-240) -/

/-- Lines 183-188: `start()`. Starting a thread twice is outside the model. -/
def WorkThreadPool.start {σ : Type} (s : WorkThreadPool σ) : Except Err (WorkThreadPool σ) :=
  if s._threads.all (fun pc => pc = Pc.created) = true then
    .ok { s with _threads := s._threads.map (fun _ => Pc.started) }
  else .error .blocked

/-- Lines 190-193: `stop(clear_after)` up to the joins. -/
def WorkThreadPool.stop_begin {σ : Type} (s : WorkThreadPool σ) : WorkThreadPool σ :=
  { s with
    _stop := true
    stopping := s.stopping + 1
    trace := s.trace ++ [Event.lock, Event.signal Cond._cond, Event.unlock] }

/-- Lines 199-200: `for (i = 0; i < work_queues.size(); i++)
work_queues[i]->_clear();` over the entries that are left. -/
def WorkThreadPool.stop_clear {σ : Type} (H : Ptr → Hooks σ) :
    List Ptr → WorkThreadPool σ → WorkThreadPool σ
  | [], s => s
  | wq :: rest, s =>
    WorkThreadPool.stop_clear H rest
      { s with
        heap := Function.update s.heap wq ((H wq)._clear (s.heap wq))
        trace := s.trace ++ [Event.call_clear wq] }

/-- Lines 194-202: `stop(clear_after)` from the joins on, for a thread that
is in the joins; the joins return when every worker thread has left `entry`. -/
def WorkThreadPool.stop_end {σ : Type} (H : Ptr → Hooks σ) (clear_after : Bool)
    (s : WorkThreadPool σ) : Except Err (WorkThreadPool σ) :=
  if 0 < s.stopping ∧ s._threads.all (fun pc => pc = Pc.exited) = true then
    let s1 := WorkThreadPool.stop_clear H s.work_queues { s with trace := s.trace ++ [Event.lock] }
    .ok { s1 with stopping := s1.stopping - 1, trace := s1.trace ++ [Event.unlock] }
  else .error .blocked

/-- Lines 203-207: `kick()`. -/
def WorkThreadPool.kick {σ : Type} (s : WorkThreadPool σ) : WorkThreadPool σ :=
  { s with trace := s.trace ++ [Event.lock, Event.signal Cond._cond, Event.unlock] }

/-- Lines 219-226: `pause()`, to its first wait or, when `processing` is zero
at once, to its return. -/
def WorkThreadPool.pause {σ : Type} (s : WorkThreadPool σ) : Except Err (WorkThreadPool σ) :=
  -- assert(!_pause);
  if s._pause = true then .error .assertion
  else if s.processing ≠ 0 then
    -- while (processing) _wait_cond.Wait(_lock);
    .ok { s with
      _pause := true
      pausing := s.pausing + 1
      trace := s.trace ++ [Event.lock, Event.wait Cond._wait_cond] }
  else
    .ok { s with
      _pause := true
      quiesced := true
      trace := s.trace ++ [Event.lock, Event.unlock] }

/-- Lines 223-225: a thread that waits inside `pause()` wakes with the lock
held and tests `processing` again, then waits again or returns. It may wake
at any time. -/
def WorkThreadPool.pause_wake {σ : Type} (s : WorkThreadPool σ) : Except Err (WorkThreadPool σ) :=
  if 0 < s.pausing then
    if s.processing ≠ 0 then
      .ok { s with trace := s.trace ++ [Event.wait Cond._wait_cond] }
    else
      .ok { s with
        pausing := s.pausing - 1
        quiesced := true
        trace := s.trace ++ [Event.unlock] }
  else .error .blocked

/-- Lines 227-232: `pause_new()`. -/
def WorkThreadPool.pause_new {σ : Type} (s : WorkThreadPool σ) : Except Err (WorkThreadPool σ) :=
  -- assert(!_pause);
  if s._pause = true then .error .assertion
  else .ok { s with _pause := true, trace := s.trace ++ [Event.lock, Event.unlock] }

/-- Lines 234-240: `unpause()`. -/
def WorkThreadPool.unpause {σ : Type} (s : WorkThreadPool σ) : Except Err (WorkThreadPool σ) :=
  -- assert(_pause);
  if s._pause = true then
    .ok { s with
      _pause := false
      quiesced := false
      trace := s.trace ++ [Event.lock, Event.signal Cond._cond, Event.unlock] }
  else .error .assertion

/-! ## The system -/

/-- The steps of the system: which thread runs next, and what it calls. -/
inductive Action where
  | start
  | entry (i : Nat)
  | new_queue (wq : Ptr)
  | delete_queue (wq : Ptr)
  | queue (wq : Ptr) (item : Item)
  | dequeue (wq : Ptr) (item : Item)
  | clear (wq : Ptr)
  | kick
  | pause
  | pause_wake
  | pause_new
  | unpause
  | stop_begin
  | stop_end (clear_after : Bool)
  deriving DecidableEq, Repr

/-- One step of the system. -/
def step {σ : Type} (H : Ptr → Hooks σ) (s : WorkThreadPool σ) :
    Action → Except Err (WorkThreadPool σ)
  | Action.start => WorkThreadPool.start s
  | Action.entry i => WorkThreadPool.entry H i s
  | Action.new_queue wq => .ok (WorkQueue.construct wq s)
  | Action.delete_queue wq => WorkQueue.destroy wq s
  | Action.queue wq item => .ok (WorkQueue.queue H wq item s).2
  | Action.dequeue wq item => .ok (WorkQueue.dequeue H wq item s)
  | Action.clear wq => .ok (WorkQueue.clear H wq s)
  | Action.kick => .ok (WorkThreadPool.kick s)
  | Action.pause => WorkThreadPool.pause s
  | Action.pause_wake => WorkThreadPool.pause_wake s
  | Action.pause_new => WorkThreadPool.pause_new s
  | Action.unpause => WorkThreadPool.unpause s
  | Action.stop_begin => .ok (WorkThreadPool.stop_begin s)
  | Action.stop_end clear_after => WorkThreadPool.stop_end H clear_after s

/-- A run of the system: the steps of `acts` in turn. -/
def run {σ : Type} (H : Ptr → Hooks σ) : WorkThreadPool σ → List Action →
    Except Err (WorkThreadPool σ)
  | s, [] => .ok s
  | s, a :: acts =>
    match step H s a with
    | .error e => .error e
    | .ok s1 => run H s1 acts

/-- Lines 189-202: `stop(clear_after)`; `joined` is what the other threads do
while the caller is in the joins. -/
def WorkThreadPool.stop {σ : Type} (H : Ptr → Hooks σ) (clear_after : Bool)
    (joined : List Action) (s : WorkThreadPool σ) : Except Err (WorkThreadPool σ) :=
  run H s (Action.stop_begin :: (joined ++ [Action.stop_end clear_after]))

/-! ## Reading the log -/

/-- The queues whose `_process` hook ran, in order. -/
def processed : List Event → List Ptr
  | [] => []
  | Event.call_process wq _ :: l => wq :: processed l
  | _ :: l => processed l

/-- The queues that `entry` tried, in order: those whose `_dequeue()` ran. -/
def tried : List Event → List Ptr
  | [] => []
  | Event.call_dequeue wq _ :: l => wq :: tried l
  | _ :: l => tried l

/-- The queues whose `_clear` hook ran, in order. -/
def cleared : List Event → List Ptr
  | [] => []
  | Event.call_clear wq :: l => wq :: cleared l
  | _ :: l => cleared l

/-- The operations on `_lock` in a log. -/
def lock_ops (l : List Event) : List Event :=
  l.filter (fun e => e = Event.lock ∨ e = Event.unlock)

/-- The signals on the condition `c` in a log, of either kind. -/
def signals (c : Cond) (l : List Event) : List Event :=
  l.filter (fun e => e = Event.signal c ∨ e = Event.signal_one c)

/-- The queue whose hooks are `h` holds `k` items in the storage `st`: `k`
calls of `_dequeue()` yield an item each, and from then on the call yields
none and leaves the storage as it is. -/
def holds {σ : Type} (h : Hooks σ) : Nat → σ → Prop
  | 0, st => h._dequeue st = (none, st)
  | k + 1, st => (∃ item, (h._dequeue st).1 = some item) ∧ holds h k (h._dequeue st).2

/-- The list `x, y, x, y, ...` of length `n`. -/
def alternate (x y : Ptr) : Nat → List Ptr
  | 0 => []
  | n + 1 => x :: alternate y x n

/-- A queue class for the examples: items are served first in, first out,
`_enqueue` accepts everything, `_clear` drops everything. -/
def fifo : Hooks (List Item) :=
  { _enqueue := fun item st => (true, st ++ [item])
    _dequeue_item := fun item st => st.erase item
    _dequeue := fun st =>
      match st with
      | [] => (none, [])
      | x :: rest => (some x, rest)
    _clear := fun _ => [] }

/-- A queue class for the examples: a FIFO that rejects an item it already
holds. -/
def fifo_unique : Hooks (List Item) :=
  { fifo with
    _enqueue := fun item st => if item ∈ st then (false, st) else (true, st ++ [item]) }

/-- What holds between any two steps of a pool that was constructed and then
used through its entry points, as long as `unpause()` has not run while a
call of `pause()` was waiting: `processing` counts the workers inside a
`_process` hook; a thread waits in `pause()` only with `_pause` set; after
`pause()` has returned and until `unpause()`, `_pause` is set and `processing`
is zero. -/
def pause_inv {σ : Type} (s : WorkThreadPool σ) : Prop :=
  s.processing = (busy s._threads : Int) ∧
  (0 < s.pausing → s._pause = true) ∧
  (s.quiesced = true → s._pause = true ∧ s.processing = 0)

/-- In the run of `acts` from `s`, every `unpause()` is called at a point
where no call of `pause()` is waiting. -/
def no_unpause_in_pause {σ : Type} (H : Ptr → Hooks σ) :
    WorkThreadPool σ → List Action → Bool
  | _, [] => true
  | s, a :: acts =>
    decide (a = Action.unpause → s.pausing = 0) &&
    match step H s a with
    | .ok s1 => no_unpause_in_pause H s1 acts
    | .error _ => true

/-- A run for the examples: queue 7 is registered, the workers start, worker
0 takes an item, `pause()` is called and waits, worker 1 finds the pool
paused, worker 0 comes back, `pause()` returns, an item is queued and worker 1
wakes. -/
def example_pause_run : List Action :=
  [Action.new_queue 7, Action.start, Action.entry 0, Action.pause, Action.entry 1,
    Action.entry 0, Action.pause_wake, Action.queue 7 3, Action.entry 1]

/-- The events that the workers inside a `_process` hook have still to log. -/
def pending : List Pc → List Event
  | [] => []
  | Pc.in_process after :: l => after ++ pending l
  | _ :: l => pending l

/-- The queues whose `_process` hook has been entered so far, in order: those
in the log, then those of the hooks that are running. -/
def served {σ : Type} (s : WorkThreadPool σ) : List Ptr :=
  processed (s.trace ++ pending s._threads)

/-- A running pool with a single worker thread, neither stopped nor paused. -/
def single_worker {σ : Type} (s : WorkThreadPool σ) : Prop :=
  s._stop = false ∧ s._pause = false ∧
  ∃ pc, s._threads = [pc] ∧ pc ≠ Pc.created ∧ pc ≠ Pc.exited

/-- Storage for the examples: the queue at address 7 holds the items 10 and
11, every other queue the items 20 and 21. -/
def example_heap : Ptr → List Item :=
  fun wq => if wq = 7 then [10, 11] else [20, 21]

/-- A pool for the examples: one started worker, the queues at 7 and 8
registered, the cursor at 0. -/
def example_pool : WorkThreadPool (List Item) :=
  { WorkThreadPool.construct 1 example_heap with
    work_queues := [7, 8]
    _threads := [Pc.started] }

end WorkQueueModel

open WorkQueueModel

/-! ## Registration: proofs -/

theorem get?_append_cons_length (a b : List Ptr) (x : Ptr) :
    (a ++ x :: b).get? a.length = some x := by
  rw [List.get?_eq_getElem?, List.getElem?_append_right (le_refl _)]
  simp

theorem get?_append_cons_succ (a b : List Ptr) (x : Ptr) :
    (a ++ x :: b).get? (a.length + 1) = b.get? 0 := by
  rw [List.get?_eq_getElem?, List.getElem?_append_right (by omega)]
  simp

theorem set_append_cons_length (a b : List Ptr) (x y : Ptr) :
    (a ++ x :: b).set a.length y = a ++ y :: b := by
  rw [List.set_append_right _ _ (le_refl _)]
  simp

theorem remove_find_spec (pre post : List Ptr) (wq : Ptr) (hpre : wq ∉ pre) :
    ∀ (done : List Ptr) (fuel : Nat), pre.length < fuel →
      remove_find (done ++ (pre ++ wq :: post)) wq fuel done.length
        = .ok (done.length + pre.length) := by
  induction pre with
  | nil =>
    intro done fuel hf
    obtain ⟨f, rfl⟩ : ∃ f, fuel = f + 1 := ⟨fuel - 1, by simp at hf; omega⟩
    simp only [remove_find, List.nil_append, get?_append_cons_length]
    simp
  | cons x pre ih =>
    intro done fuel hf
    obtain ⟨f, rfl⟩ : ∃ f, fuel = f + 1 := ⟨fuel - 1, by simp at hf; omega⟩
    have hx : x ≠ wq := by
      intro h
      exact hpre (by simp [h])
    have hp : wq ∉ pre := by
      intro h
      exact hpre (by simp [h])
    have h2 := ih hp (done ++ [x]) f (by simp at hf ⊢; omega)
    simp only [List.append_assoc, List.singleton_append, List.length_append,
      List.length_singleton] at h2
    simp only [remove_find, List.cons_append, get?_append_cons_length]
    simp only [ne_eq, hx, not_false_eq_true, if_true]
    rw [h2]
    simp only [List.length_cons]
    congr 1
    omega

theorem remove_shift_spec : ∀ (post : List Ptr) (pre : List Ptr) (x : Ptr) (fuel : Nat),
    post.length ≤ fuel →
    remove_shift fuel (pre ++ x :: post) (pre.length + 1)
      = (pre ++ (post ++ [(x :: post).getLast (by simp)]), pre.length + 1 + post.length) := by
  intro post
  induction post with
  | nil =>
    intro pre x fuel _
    cases fuel with
    | zero => simp [remove_shift]
    | succ f =>
      simp only [remove_shift, get?_append_cons_succ, List.get?_nil]
      simp
  | cons y post ih =>
    intro pre x fuel hf
    obtain ⟨f, rfl⟩ : ∃ f, fuel = f + 1 := ⟨fuel - 1, by simp at hf; omega⟩
    have h3 := ih (pre ++ [y]) y f (by simp at hf; omega)
    simp only [List.length_append, List.length_singleton, List.append_assoc,
      List.singleton_append] at h3
    simp only [remove_shift, get?_append_cons_succ, List.get?_cons_zero, Nat.add_sub_cancel,
      set_append_cons_length]
    rw [h3]
    simp only [List.length_cons, Prod.mk.injEq]
    refine ⟨?_, by omega⟩
    simp [List.getLast_cons]

theorem remove_work_queue_split (pre post : List Ptr) (wq : Ptr) (hpre : wq ∉ pre) :
    remove_work_queue (pre ++ wq :: post) wq = .ok (pre ++ post) := by
  have h1 := remove_find_spec pre post wq hpre [] ((pre ++ wq :: post).length + 1)
    (by simp only [List.length_append, List.length_cons]; omega)
  simp only [List.nil_append, List.length_nil, Nat.zero_add] at h1
  have h2 := remove_shift_spec post pre wq (pre ++ wq :: post).length
    (by simp only [List.length_append, List.length_cons]; omega)
  unfold remove_work_queue
  rw [h1]
  simp only []
  rw [h2]
  simp only []
  rw [if_pos (by simp only [List.length_append, List.length_cons, List.length_nil]; omega),
    ← List.append_assoc]
  exact congrArg Except.ok (List.take_left' (by simp only [List.length_append]; omega))

theorem remove_work_queue_erase (work_queues : List Ptr) (wq : Ptr) (h : wq ∈ work_queues) :
    remove_work_queue work_queues wq = .ok (work_queues.erase wq) := by
  obtain ⟨pre, post, hpre, rfl⟩ : ∃ pre post, wq ∉ pre ∧ work_queues = pre ++ wq :: post := by
    obtain ⟨pre, post, h1, h2⟩ := List.eq_append_cons_of_mem h
    exact ⟨pre, post, h2, h1⟩
  rw [remove_work_queue_split pre post wq hpre, List.erase_append_right _ hpre]
  simp

/-- Claim C6. `add_work_queue(wq)` yields the old list with `wq` appended as
its last element; for a list that contains `wq`, `remove_work_queue(wq)`
finishes without reading outside the list and with its assert satisfied, and
yields the list with the first occurrence of `wq` erased: one entry shorter,
the other entries in their original relative order. -/
theorem C6_registration (work_queues : List Ptr) (wq : Ptr) :
    add_work_queue work_queues wq = work_queues ++ [wq] ∧
    (add_work_queue work_queues wq).getLast? = some wq ∧
    (wq ∈ work_queues →
      remove_work_queue work_queues wq = .ok (work_queues.erase wq) ∧
      (work_queues.erase wq).length + 1 = work_queues.length ∧
      (work_queues.erase wq).Sublist work_queues ∧
      (∀ pre post, wq ∉ pre → work_queues = pre ++ wq :: post →
        remove_work_queue work_queues wq = .ok (pre ++ post))) := by
  refine ⟨rfl, by simp [add_work_queue], fun h => ⟨remove_work_queue_erase _ _ h, ?_,
    List.erase_sublist _ _, ?_⟩⟩
  · rw [List.length_erase_of_mem h]
    have : 0 < work_queues.length := List.length_pos_of_mem h
    omega
  · intro pre post hpre heq
    subst heq
    exact remove_work_queue_split pre post wq hpre

theorem C6_registration_witness :
    7 ∈ [5, 7, 9, 7] ∧
    remove_work_queue [5, 7, 9, 7] 7 = .ok [5, 9, 7] ∧
    (remove_work_queue [5, 7, 9, 7] 7 = .ok ([5, 7, 9, 7].erase 7) ∧
      ([5, 7, 9, 7].erase 7).length + 1 = [5, 7, 9, 7].length ∧
      ([5, 7, 9, 7].erase 7).Sublist [5, 7, 9, 7] ∧
      (∀ pre post, 7 ∉ pre → [5, 7, 9, 7] = pre ++ 7 :: post →
        remove_work_queue [5, 7, 9, 7] 7 = .ok (pre ++ post))) :=
  ⟨by decide, rfl, (C6_registration [5, 7, 9, 7] 7).2.2 (by decide)⟩

/-! ## queue, _try_process, registration and the lock -/

/-- Claim C3. `queue(item)` returns the boolean that the `_enqueue(item)` hook
of the queue returned, signals the work-available condition `_cond` exactly
once during the call whatever that boolean is, and changes none of the pool's
fields `_stop`, `_pause`, `last_work_queue`, `processing`, `work_queues`. -/
theorem C3_queue_returns_enqueue_and_signals_once {σ : Type} (H : Ptr → Hooks σ) (wq : Ptr)
    (item : Item) (s : WorkThreadPool σ) :
    (WorkQueue.queue H wq item s).1 = ((H wq)._enqueue item (s.heap wq)).1 ∧
    (WorkQueue.queue H wq item s).2.trace = s.trace ++
      [Event.lock, Event.call_enqueue wq item ((H wq)._enqueue item (s.heap wq)).1,
        Event.signal_one Cond._cond, Event.unlock] ∧
    (signals Cond._cond ((WorkQueue.queue H wq item s).2.trace.drop s.trace.length)).length = 1 ∧
    (WorkQueue.queue H wq item s).2._stop = s._stop ∧
    (WorkQueue.queue H wq item s).2._pause = s._pause ∧
    (WorkQueue.queue H wq item s).2.last_work_queue = s.last_work_queue ∧
    (WorkQueue.queue H wq item s).2.processing = s.processing ∧
    (WorkQueue.queue H wq item s).2.work_queues = s.work_queues ∧
    (WorkQueue.queue H wq item s).2._threads = s._threads := by
  refine ⟨rfl, rfl, ?_, rfl, rfl, rfl, rfl, rfl, rfl⟩
  simp [WorkQueue.queue, signals, List.filter]

/-- Claim C8. `_try_process`, entered with the lock held, calls `_dequeue()`
once. If that yields no item it returns false and has touched neither the lock
nor `_process`. If it yields an item it unlocks, calls `_process` on that item
once, locks, in this order, and returns true. -/
theorem C8_try_process_order {σ : Type} (h : Hooks σ) (wq : Ptr) (st : σ) :
    ((h._dequeue st).1 = none →
      (WorkQueue._try_process h wq st).ret = false ∧
      (WorkQueue._try_process h wq st).held ++ (WorkQueue._try_process h wq st).released
        = [Event.call_dequeue wq none]) ∧
    (∀ item, (h._dequeue st).1 = some item →
      (WorkQueue._try_process h wq st).ret = true ∧
      (WorkQueue._try_process h wq st).held ++ (WorkQueue._try_process h wq st).released
        = [Event.call_dequeue wq (some item), Event.unlock, Event.call_process wq item,
            Event.lock]) ∧
    (WorkQueue._try_process h wq st).st = (h._dequeue st).2 := by
  unfold WorkQueue._try_process
  rcases hd : h._dequeue st with ⟨_ | item, st1⟩ <;> simp

theorem C8_try_process_order_witness :
    (fifo._dequeue [4, 5]).1 = some 4 ∧ (fifo._dequeue []).1 = none ∧
    ((WorkQueue._try_process fifo 7 [4, 5]).ret = true ∧
      (WorkQueue._try_process fifo 7 [4, 5]).held ++ (WorkQueue._try_process fifo 7 [4, 5]).released
        = [Event.call_dequeue 7 (some 4), Event.unlock, Event.call_process 7 4, Event.lock]) ∧
    ((WorkQueue._try_process fifo 7 []).ret = false ∧
      (WorkQueue._try_process fifo 7 []).held ++ (WorkQueue._try_process fifo 7 []).released
        = [Event.call_dequeue 7 none]) :=
  ⟨rfl, rfl, (C8_try_process_order fifo 7 [4, 5]).2.1 4 rfl,
    (C8_try_process_order fifo 7 []).1 rfl⟩

/-- Claim C9, on the code: constructing the queue object at address 7 on a
fresh pool, and destroying it again, change `work_queues` and perform no
operation on `_lock`. -/
theorem C9_registration_without_lock :
    (WorkQueue.construct 7 (WorkThreadPool.construct 1 (fun _ => ([] : List Item)))).work_queues
      = [7] ∧
    (WorkQueue.construct 7 (WorkThreadPool.construct 1 (fun _ => ([] : List Item)))).trace
      = [Event.push_back 7] ∧
    lock_ops (WorkQueue.construct 7
      (WorkThreadPool.construct 1 (fun _ => ([] : List Item)))).trace = [] ∧
    (∃ s, WorkQueue.destroy 7 (WorkQueue.construct 7
        (WorkThreadPool.construct 1 (fun _ => ([] : List Item)))) = .ok s ∧
      s.work_queues = [] ∧ s.trace = [Event.push_back 7, Event.erase 7] ∧
      lock_ops s.trace = []) := by
  refine ⟨rfl, rfl, by decide, _, rfl, rfl, rfl, by decide⟩

/-- Claim C1, on the code: a pool with one worker and one registered FIFO
queue at address 7 that holds the items 1, 2, 3; `stop(false)` is called and
the worker leaves `entry` during the joins. When the workers are joined the
queue still holds its three items; when `stop(false)` returns, `_clear` has
run on the queue and the items are gone. -/
theorem C1_stop_false_clears :
    ∃ s0 sj s,
      run (fun _ => fifo) (WorkThreadPool.construct 1 (fun _ => [1, 2, 3]))
        [Action.new_queue 7, Action.start] = .ok s0 ∧
      run (fun _ => fifo) s0 [Action.stop_begin, Action.entry 0] = .ok sj ∧
      sj._threads = [Pc.exited] ∧ sj.heap 7 = [1, 2, 3] ∧ cleared sj.trace = [] ∧
      WorkThreadPool.stop (fun _ => fifo) false [Action.entry 0] s0 = .ok s ∧
      cleared s.trace = [7] ∧ s.heap 7 = [] ∧ processed s.trace = [] := by
  refine ⟨_, _, _, rfl, rfl, rfl, rfl, by decide, rfl, by decide, rfl, by decide⟩

/-- Claim C10. There are a queue list, a cursor value and a registered queue
`wq` such that removing `wq` and then running one sweep of the worker loop
tries first a queue other than the one that followed the cursor's queue in the
list before the removal: with the list `[1, 2, 3]` and the cursor at 0 (queue
1), removing queue 1 makes the sweep try queue 3 before queue 2. The same in a
run from the constructor: the worker serves queue 1, queue 1 is destroyed,
queues 2 and 3 each get an item, and the worker serves queue 3 next. -/
theorem C10_cursor_skips_after_remove :
    (∃ (work_queues : List Ptr) (c : Nat) (wq : Ptr) (s : WorkThreadPool (List Item)),
      wq ∈ work_queues ∧ c < work_queues.length ∧
      run (fun _ => fifo)
        { WorkThreadPool.construct 1 (fun _ => []) with
          work_queues := work_queues, last_work_queue := c, _threads := [Pc.waiting] }
        [Action.delete_queue wq, Action.entry 0] = .ok s ∧
      (tried s.trace).head? ≠ work_queues.get? ((c + 1) % work_queues.length) ∧
      work_queues.get? ((c + 1) % work_queues.length) = some 2 ∧
      tried s.trace = [3, 2]) ∧
    (∃ s1 s2 : WorkThreadPool (List Item),
      run (fun _ => fifo) (WorkThreadPool.construct 1 (fun wq => if wq = 1 then [10] else []))
        [Action.new_queue 1, Action.new_queue 2, Action.new_queue 3, Action.start,
          Action.entry 0, Action.entry 0] = .ok s1 ∧
      s1.work_queues = [1, 2, 3] ∧ s1.last_work_queue = 0 ∧ served s1 = [1] ∧
      run (fun _ => fifo) s1
        [Action.delete_queue 1, Action.queue 2 20, Action.queue 3 30, Action.entry 0] = .ok s2 ∧
      s2.work_queues = [2, 3] ∧ s2.heap 2 = [20] ∧ served s2 = [1, 3]) := by
  refine ⟨⟨[1, 2, 3], 0, 1, _, by decide, by decide, rfl, by decide, rfl, by decide⟩,
    _, _, rfl, rfl, rfl, by decide, rfl, rfl, rfl, by decide⟩

/-! ## The worker loop: what a step changes -/

theorem entry_sweep_frame {σ : Type} (H : Ptr → Hooks σ) :
    ∀ (tries : Nat) (s s' : WorkThreadPool σ) (r : Option (List Event)),
      WorkThreadPool.entry_sweep H tries s = .ok (s', r) →
      s'._stop = s._stop ∧ s'._pause = s._pause ∧ s'.work_queues = s.work_queues ∧
      s'._threads = s._threads ∧ s'.pausing = s.pausing ∧ s'.quiesced = s.quiesced ∧
      s'.processing = s.processing + (if r.isSome = true then 1 else 0) := by
  intro tries
  induction tries with
  | zero =>
    intro s s' r h
    simp only [WorkThreadPool.entry_sweep, Except.ok.injEq, Prod.mk.injEq] at h
    obtain ⟨rfl, rfl⟩ := h
    simp
  | succ n ih =>
    intro s s' r h
    simp only [WorkThreadPool.entry_sweep] at h
    split at h
    · cases h
    · split at h
      · cases h
      · split at h
        · simp only [Except.ok.injEq, Prod.mk.injEq] at h
          obtain ⟨rfl, rfl⟩ := h
          simp
        · have h1 := ih _ _ _ h
          simp only [add_sub_cancel_right] at h1
          exact h1

theorem entry_sweep_ok {σ : Type} (H : Ptr → Hooks σ) :
    ∀ (tries : Nat) (s : WorkThreadPool σ), s.work_queues.length ≠ 0 →
      ∃ s' r, WorkThreadPool.entry_sweep H tries s = .ok (s', r) := by
  intro tries
  induction tries with
  | zero =>
    intro s _
    exact ⟨s, none, rfl⟩
  | succ n ih =>
    intro s hs
    have hlt : (s.last_work_queue + 1) % s.work_queues.length < s.work_queues.length :=
      Nat.mod_lt _ (Nat.pos_of_ne_zero hs)
    simp only [WorkThreadPool.entry_sweep, hs, if_false]
    rw [List.get?_eq_getElem?, List.getElem?_eq_getElem hlt]
    simp only []
    split
    · exact ⟨_, _, rfl⟩
    · exact ih _ hs

theorem entry_loop_spec {σ : Type} (H : Ptr → Hooks σ) (i : Nat) (s s' : WorkThreadPool σ)
    (h : WorkThreadPool.entry_loop H i s = .ok s') :
    s'._stop = s._stop ∧ s'._pause = s._pause ∧ s'.work_queues = s.work_queues ∧
    s'.pausing = s.pausing ∧ s'.quiesced = s.quiesced ∧
    ∃ pc, s'._threads = s._threads.set i pc ∧
      (((∃ after, pc = Pc.in_process after) ∧ s'.processing = s.processing + 1 ∧
          s._pause = false ∧ s._stop = false) ∨
        ((pc = Pc.waiting ∨ pc = Pc.exited) ∧ s'.processing = s.processing)) := by
  unfold WorkThreadPool.entry_loop at h
  split at h
  · simp only [Except.ok.injEq] at h
    subst h
    exact ⟨rfl, rfl, rfl, rfl, rfl, Pc.exited, rfl, Or.inr ⟨Or.inr rfl, rfl⟩⟩
  · rename_i hstop
    split at h
    · rename_i hp
      split at h
      · cases h
      · rename_i s1 after hsw
        simp only [Except.ok.injEq] at h
        subst h
        obtain ⟨h1, h2, h3, h4, h5, h6, h7⟩ := entry_sweep_frame H _ _ _ _ hsw
        refine ⟨h1, h2, h3, h5, h6, Pc.in_process after, by simp [h4], Or.inl ⟨⟨after, rfl⟩, ?_,
          hp.1, by simpa using hstop⟩⟩
        simpa using h7
      · rename_i s1 hsw
        simp only [Except.ok.injEq] at h
        subst h
        obtain ⟨h1, h2, h3, h4, h5, h6, h7⟩ := entry_sweep_frame H _ _ _ _ hsw
        refine ⟨h1, h2, h3, h5, h6, Pc.waiting, by simp [h4], Or.inr ⟨Or.inl rfl, ?_⟩⟩
        simpa using h7
    · simp only [Except.ok.injEq] at h
      subst h
      exact ⟨rfl, rfl, rfl, rfl, rfl, Pc.waiting, rfl, Or.inr ⟨Or.inl rfl, rfl⟩⟩

theorem entry_loop_ok {σ : Type} (H : Ptr → Hooks σ) (i : Nat) (s : WorkThreadPool σ) :
    ∃ s', WorkThreadPool.entry_loop H i s = .ok s' := by
  unfold WorkThreadPool.entry_loop
  split
  · exact ⟨_, rfl⟩
  · split
    · rename_i hp
      obtain ⟨s1, r, hsw⟩ := entry_sweep_ok H s.work_queues.length s hp.2
      rw [hsw]
      cases r with
      | none => exact ⟨_, rfl⟩
      | some after => exact ⟨_, rfl⟩
    · exact ⟨_, rfl⟩

theorem entry_ne_entry_index {σ : Type} (H : Ptr → Hooks σ) (i : Nat) (s : WorkThreadPool σ) :
    WorkThreadPool.entry H i s ≠ .error Err.entry_index := by
  unfold WorkThreadPool.entry
  split
  · obtain ⟨s', h⟩ := entry_loop_ok H i { s with trace := s.trace ++ [Event.lock] }
    rw [h]
    simp
  · unfold WorkThreadPool.entry_resume
    obtain ⟨s', h⟩ := entry_loop_ok H i _
    rw [h]
    simp
  · obtain ⟨s', h⟩ := entry_loop_ok H i s
    rw [h]
    simp
  · simp

theorem remove_find_ne_entry_index (l : List Ptr) (wq : Ptr) :
    ∀ (fuel i : Nat), remove_find l wq fuel i ≠ .error Err.entry_index := by
  intro fuel
  induction fuel with
  | zero => intro i; simp [remove_find]
  | succ n ih =>
    intro i
    simp only [remove_find]
    split
    · simp
    · split
      · exact ih _
      · simp

theorem step_ne_entry_index {σ : Type} (H : Ptr → Hooks σ) (s : WorkThreadPool σ) (a : Action) :
    step H s a ≠ .error Err.entry_index := by
  cases a with
  | entry i => exact entry_ne_entry_index H i s
  | delete_queue wq =>
    simp only [step, WorkQueue.destroy, remove_work_queue]
    have := remove_find_ne_entry_index s.work_queues wq (s.work_queues.length + 1) 0
    split
    · rename_i e he
      split at he
      · rename_i e' he'
        simp only [Except.error.injEq] at he
        subst he
        intro hc
        simp only [Except.error.injEq] at hc
        subst hc
        exact this he'
      · split at he
        · cases he
        · simp only [Except.error.injEq] at he
          subst he
          simp
    · simp
  | start => simp only [step, WorkThreadPool.start]; split <;> simp
  | pause =>
    simp only [step, WorkThreadPool.pause]
    split
    · simp
    · split <;> simp
  | pause_wake =>
    simp only [step, WorkThreadPool.pause_wake]
    split
    · split <;> simp
    · simp
  | pause_new => simp only [step, WorkThreadPool.pause_new]; split <;> simp
  | unpause => simp only [step, WorkThreadPool.unpause]; split <;> simp
  | stop_end b => simp only [step, WorkThreadPool.stop_end]; split <;> simp
  | _ => simp [step]

theorem run_ne_entry_index {σ : Type} (H : Ptr → Hooks σ) :
    ∀ (acts : List Action) (s : WorkThreadPool σ), run H s acts ≠ .error Err.entry_index := by
  intro acts
  induction acts with
  | nil => intro s; simp [run]
  | cons a acts ih =>
    intro s
    simp only [run]
    split
    · rename_i e he
      intro hc
      simp only [Except.error.injEq] at hc
      subst hc
      exact step_ne_entry_index H s a he
    · exact ih _

theorem entry_sweep_cursor {σ : Type} (H : Ptr → Hooks σ) :
    ∀ (tries : Nat) (s s' : WorkThreadPool σ) (r : Option (List Event)),
      WorkThreadPool.entry_sweep H tries s = .ok (s', r) →
      (s.last_work_queue < s.work_queues.length ∨ 0 < tries) →
      s'.last_work_queue < s'.work_queues.length := by
  intro tries
  induction tries with
  | zero =>
    intro s s' r h hc
    simp only [WorkThreadPool.entry_sweep, Except.ok.injEq, Prod.mk.injEq] at h
    obtain ⟨rfl, _⟩ := h
    rcases hc with hc | hc
    · exact hc
    · exact absurd hc (Nat.lt_irrefl 0)
  | succ n ih =>
    intro s s' r h _
    simp only [WorkThreadPool.entry_sweep] at h
    split at h
    · cases h
    · rename_i hlen
      have hlt : (s.last_work_queue + 1) % s.work_queues.length < s.work_queues.length :=
        Nat.mod_lt _ (Nat.pos_of_ne_zero hlen)
      split at h
      · cases h
      · split at h
        · simp only [Except.ok.injEq, Prod.mk.injEq] at h
          obtain ⟨rfl, _⟩ := h
          exact hlt
        · exact ih _ _ _ h (Or.inl hlt)

theorem entry_loop_cursor {σ : Type} (H : Ptr → Hooks σ) (i : Nat) (s s' : WorkThreadPool σ)
    (h : WorkThreadPool.entry_loop H i s = .ok s') (hs : s._stop = false)
    (hp : s._pause = false) (hl : s.work_queues ≠ []) :
    s'.last_work_queue < s'.work_queues.length := by
  have hlen : s.work_queues.length ≠ 0 := by
    intro hc
    exact hl (List.length_eq_zero.1 hc)
  unfold WorkThreadPool.entry_loop at h
  rw [if_neg (by rw [hs]; simp), if_pos ⟨hp, hlen⟩] at h
  split at h
  · cases h
  · rename_i s1 after hsw
    simp only [Except.ok.injEq] at h
    subst h
    have := entry_sweep_cursor H _ s s1 _ hsw (Or.inr (Nat.pos_of_ne_zero hlen))
    exact this
  · rename_i s1 hsw
    simp only [Except.ok.injEq] at h
    subst h
    have := entry_sweep_cursor H _ s s1 _ hsw (Or.inr (Nat.pos_of_ne_zero hlen))
    exact this

/-- Claim C7. Whatever the state, and whatever the other threads do between
the stretches that a worker runs with the lock held (queues registered or
removed while it is inside a process hook or waiting, items queued, pause,
stop), no step of `entry` takes `% work_queues.size()` with an empty list or
reads `work_queues[last_work_queue]` outside the list; and a step of `entry`
that sweeps leaves `last_work_queue` below `work_queues.size()`. -/
theorem C7_cursor_in_bounds {σ : Type} (H : Ptr → Hooks σ) (s : WorkThreadPool σ) :
    (∀ acts : List Action, run H s acts ≠ .error Err.entry_index) ∧
    (∀ (acts : List Action) (s1 : WorkThreadPool σ) (i : Nat) (s' : WorkThreadPool σ),
      run H s acts = .ok s1 → WorkThreadPool.entry H i s1 = .ok s' →
      s1._stop = false → s1._pause = false → s1.work_queues ≠ [] →
      s'.last_work_queue < s'.work_queues.length) := by
  refine ⟨fun acts => run_ne_entry_index H acts s, ?_⟩
  intro _ s1 i s' _ h hs hp hl
  unfold WorkThreadPool.entry at h
  split at h
  · exact entry_loop_cursor H i _ s' h hs hp hl
  · unfold WorkThreadPool.entry_resume at h
    exact entry_loop_cursor H i _ s' h hs hp hl
  · exact entry_loop_cursor H i s1 s' h hs hp hl
  · cases h

theorem C7_cursor_in_bounds_witness :
    ∃ s1 s', run (fun _ => fifo) example_pool
        [Action.entry 0, Action.delete_queue 7, Action.delete_queue 8, Action.new_queue 9,
          Action.queue 9 5] = .ok s1 ∧
      s1.last_work_queue = 1 ∧ s1.work_queues = [9] ∧
      WorkThreadPool.entry (fun _ => fifo) 0 s1 = .ok s' ∧
      s'.last_work_queue < s'.work_queues.length :=
  ⟨_, _, rfl, rfl, rfl, rfl,
    (C7_cursor_in_bounds (fun _ => fifo) example_pool).2
      [Action.entry 0, Action.delete_queue 7, Action.delete_queue 8, Action.new_queue 9,
        Action.queue 9 5] _ 0 _ rfl rfl rfl rfl (by decide)⟩

theorem busy_set : ∀ (l : List Pc) (i : Nat) (old new : Pc), l.get? i = some old →
    busy (l.set i new) + busy [old] = busy l + busy [new] := by
  intro l
  induction l with
  | nil => intro i old new h; simp at h
  | cons x l ih =>
    intro i old new h
    cases i with
    | zero =>
      simp only [List.get?_cons_zero, Option.some.injEq] at h
      subst h
      simp only [List.set_cons_zero]
      cases x <;> cases new <;> simp [busy]
    | succ j =>
      simp only [List.get?_cons_succ] at h
      have := ih j old new h
      simp only [List.set_cons_succ]
      cases x <;> simp only [busy] <;> omega

theorem busy_eq_zero_of_all (pc : Pc) (hpc : busy [pc] = 0) :
    ∀ (l : List Pc), l.all (fun x => x = pc) = true → busy l = 0 := by
  intro l
  induction l with
  | nil => intro _; rfl
  | cons x l ih =>
    intro h
    simp only [List.all_cons, Bool.and_eq_true, decide_eq_true_eq] at h
    obtain ⟨rfl, h2⟩ := h
    have := ih h2
    cases x <;> simp_all [busy]

theorem busy_map_started : ∀ (l : List Pc), busy (l.map (fun _ => Pc.started)) = 0 := by
  intro l
  induction l with
  | nil => rfl
  | cons x l ih => simpa [busy] using ih

theorem busy_replicate_created : ∀ (n : Nat), busy (List.replicate n Pc.created) = 0 := by
  intro n
  induction n with
  | zero => rfl
  | succ n ih => simpa [List.replicate_succ, busy] using ih

theorem entry_spec {σ : Type} (H : Ptr → Hooks σ) (i : Nat) (s s' : WorkThreadPool σ)
    (h : WorkThreadPool.entry H i s = .ok s') :
    s'._stop = s._stop ∧ s'._pause = s._pause ∧ s'.work_queues = s.work_queues ∧
    s'.pausing = s.pausing ∧ s'.quiesced = s.quiesced ∧
    ∃ old new, s._threads.get? i = some old ∧ s'._threads = s._threads.set i new ∧
      ((busy [new] = 1 ∧ s'.processing + busy [old] = s.processing + 1 ∧
          s._pause = false ∧ s._stop = false) ∨
        (busy [new] = 0 ∧ s'.processing + busy [old] = s.processing)) := by
  unfold WorkThreadPool.entry at h
  split at h
  · rename_i hget
    obtain ⟨h1, h2, h3, h4, h5, pc, h6, h7⟩ := entry_loop_spec H i _ _ h
    refine ⟨h1, h2, h3, h4, h5, Pc.started, pc, hget, h6, ?_⟩
    rcases h7 with ⟨⟨after, rfl⟩, hp, ha, hb⟩ | ⟨rfl | rfl, hp⟩
    · exact Or.inl ⟨rfl, by simpa [busy] using hp, ha, hb⟩
    · exact Or.inr ⟨rfl, by simpa [busy] using hp⟩
    · exact Or.inr ⟨rfl, by simpa [busy] using hp⟩
  · rename_i after0 hget
    unfold WorkThreadPool.entry_resume at h
    obtain ⟨h1, h2, h3, h4, h5, pc, h6, h7⟩ := entry_loop_spec H i _ _ h
    refine ⟨h1, h2, h3, h4, h5, Pc.in_process after0, pc, hget, h6, ?_⟩
    rcases h7 with ⟨⟨after, rfl⟩, hp, ha, hb⟩ | ⟨rfl | rfl, hp⟩
    · refine Or.inl ⟨rfl, ?_, ha, hb⟩
      simp only [busy] at hp ⊢
      rw [hp]
      push_cast
      ring
    · refine Or.inr ⟨rfl, ?_⟩
      simp only [busy] at hp ⊢
      rw [hp]
      push_cast
      ring
    · refine Or.inr ⟨rfl, ?_⟩
      simp only [busy] at hp ⊢
      rw [hp]
      push_cast
      ring
  · rename_i hget
    obtain ⟨h1, h2, h3, h4, h5, pc, h6, h7⟩ := entry_loop_spec H i _ _ h
    refine ⟨h1, h2, h3, h4, h5, Pc.waiting, pc, hget, h6, ?_⟩
    rcases h7 with ⟨⟨after, rfl⟩, hp, ha, hb⟩ | ⟨rfl | rfl, hp⟩
    · exact Or.inl ⟨rfl, by simpa [busy] using hp, ha, hb⟩
    · exact Or.inr ⟨rfl, by simpa [busy] using hp⟩
    · exact Or.inr ⟨rfl, by simpa [busy] using hp⟩
  · cases h

theorem stop_clear_frame {σ : Type} (H : Ptr → Hooks σ) :
    ∀ (l : List Ptr) (s : WorkThreadPool σ),
      (WorkThreadPool.stop_clear H l s)._stop = s._stop ∧
      (WorkThreadPool.stop_clear H l s)._pause = s._pause ∧
      (WorkThreadPool.stop_clear H l s).work_queues = s.work_queues ∧
      (WorkThreadPool.stop_clear H l s).last_work_queue = s.last_work_queue ∧
      (WorkThreadPool.stop_clear H l s).processing = s.processing ∧
      (WorkThreadPool.stop_clear H l s)._threads = s._threads ∧
      (WorkThreadPool.stop_clear H l s).pausing = s.pausing ∧
      (WorkThreadPool.stop_clear H l s).quiesced = s.quiesced ∧
      (WorkThreadPool.stop_clear H l s).trace = s.trace ++ l.map Event.call_clear := by
  intro l
  induction l with
  | nil => intro s; simp [WorkThreadPool.stop_clear]
  | cons wq rest ih =>
    intro s
    simp only [WorkThreadPool.stop_clear]
    obtain ⟨h1, h2, h3, h4, h5, h6, h7, h8, h9⟩ := ih
      { s with
        heap := Function.update s.heap wq ((H wq)._clear (s.heap wq))
        trace := s.trace ++ [Event.call_clear wq] }
    refine ⟨h1, h2, h3, h4, h5, h6, h7, h8, ?_⟩
    rw [h9]
    simp

theorem stop_clear_heap_of_not_mem {σ : Type} (H : Ptr → Hooks σ) (wq : Ptr) :
    ∀ (l : List Ptr) (s : WorkThreadPool σ), wq ∉ l →
      (WorkThreadPool.stop_clear H l s).heap wq = s.heap wq := by
  intro l
  induction l with
  | nil => intro s _; rfl
  | cons x rest ih =>
    intro s hn
    simp only [List.mem_cons, not_or] at hn
    simp only [WorkThreadPool.stop_clear]
    rw [ih _ hn.2]
    simp [Function.update, hn.1]

theorem stop_clear_heap_of_mem {σ : Type} (H : Ptr → Hooks σ) (wq : Ptr) (P : σ → Prop)
    (hP : ∀ st, P ((H wq)._clear st)) :
    ∀ (l : List Ptr) (s : WorkThreadPool σ), wq ∈ l →
      P ((WorkThreadPool.stop_clear H l s).heap wq) := by
  intro l
  induction l with
  | nil => intro s hm; simp at hm
  | cons x rest ih =>
    intro s hm
    simp only [WorkThreadPool.stop_clear]
    by_cases hr : wq ∈ rest
    · exact ih _ hr
    · have hx : wq = x := by
        rcases List.mem_cons.1 hm with h | h
        · exact h
        · exact absurd h hr
      subst hx
      rw [stop_clear_heap_of_not_mem H wq rest _ hr]
      simpa using hP (s.heap wq)

theorem run_append {σ : Type} (H : Ptr → Hooks σ) :
    ∀ (a b : List Action) (s : WorkThreadPool σ),
      run H s (a ++ b) =
        match run H s a with
        | .error e => .error e
        | .ok s1 => run H s1 b := by
  intro a
  induction a with
  | nil => intro b s; rfl
  | cons x a ih =>
    intro b s
    simp only [List.cons_append, run]
    cases step H s x with
    | error e => rfl
    | ok s1 => exact ih b s1

theorem step_stop_mono {σ : Type} (H : Ptr → Hooks σ) (s s' : WorkThreadPool σ) (a : Action)
    (h : step H s a = .ok s') (hs : s._stop = true) : s'._stop = true := by
  cases a with
  | entry i =>
    have := (entry_spec H i s s' h).1
    rw [this, hs]
  | delete_queue wq =>
    simp only [step, WorkQueue.destroy] at h
    split at h
    · cases h
    · simp only [Except.ok.injEq] at h
      subst h
      exact hs
  | start =>
    simp only [step, WorkThreadPool.start] at h
    split at h
    · simp only [Except.ok.injEq] at h
      subst h
      exact hs
    · cases h
  | pause =>
    simp only [step, WorkThreadPool.pause] at h
    split at h
    · cases h
    · split at h
      · simp only [Except.ok.injEq] at h
        subst h
        exact hs
      · simp only [Except.ok.injEq] at h
        subst h
        exact hs
  | pause_wake =>
    simp only [step, WorkThreadPool.pause_wake] at h
    split at h
    · split at h
      · simp only [Except.ok.injEq] at h
        subst h
        exact hs
      · simp only [Except.ok.injEq] at h
        subst h
        exact hs
    · cases h
  | pause_new =>
    simp only [step, WorkThreadPool.pause_new] at h
    split at h
    · cases h
    · simp only [Except.ok.injEq] at h
      subst h
      exact hs
  | unpause =>
    simp only [step, WorkThreadPool.unpause] at h
    split at h
    · simp only [Except.ok.injEq] at h
      subst h
      exact hs
    · cases h
  | stop_begin =>
    simp only [step, WorkThreadPool.stop_begin, Except.ok.injEq] at h
    subst h
    rfl
  | stop_end b =>
    simp only [step, WorkThreadPool.stop_end] at h
    split at h
    · simp only [Except.ok.injEq] at h
      subst h
      simp only []
      rw [(stop_clear_frame H _ _).1]
      exact hs
    · cases h
  | new_queue wq =>
    simp only [step, Except.ok.injEq] at h
    subst h
    exact hs
  | queue wq item =>
    simp only [step, Except.ok.injEq] at h
    subst h
    exact hs
  | dequeue wq item =>
    simp only [step, Except.ok.injEq] at h
    subst h
    exact hs
  | clear wq =>
    simp only [step, Except.ok.injEq] at h
    subst h
    exact hs
  | kick =>
    simp only [step, Except.ok.injEq] at h
    subst h
    exact hs

theorem run_stop_mono {σ : Type} (H : Ptr → Hooks σ) :
    ∀ (acts : List Action) (s s' : WorkThreadPool σ),
      run H s acts = .ok s' → s._stop = true → s'._stop = true := by
  intro acts
  induction acts with
  | nil =>
    intro s s' h hs
    simp only [run, Except.ok.injEq] at h
    subst h
    exact hs
  | cons a acts ih =>
    intro s s' h hs
    simp only [run] at h
    split at h
    · cases h
    · rename_i s1 h1
      exact ih s1 s' h (step_stop_mono H s s1 a h1 hs)

theorem cleared_map_call_clear : ∀ (l : List Ptr) (tl : List Event),
    cleared (l.map Event.call_clear ++ tl) = l ++ cleared tl := by
  intro l
  induction l with
  | nil => intro tl; rfl
  | cons x l ih => intro tl; simp [cleared, ih]

/-- Claim C2. When `stop(true)` returns, `_stop` is true, and between the
joins and the return `_clear` has run on every queue of `work_queues`, once
per entry and in list order, so that every registered queue whose `_clear`
empties it is empty. -/
theorem C2_stop_true_clears_all {σ : Type} (H : Ptr → Hooks σ) (joined : List Action)
    (s s' : WorkThreadPool σ) (h : WorkThreadPool.stop H true joined s = .ok s') :
    s'._stop = true ∧
    ∃ sj, run H s (Action.stop_begin :: joined) = .ok sj ∧
      sj._threads.all (fun pc => pc = Pc.exited) = true ∧
      s'.work_queues = sj.work_queues ∧
      s'.trace = sj.trace ++
        (Event.lock :: (sj.work_queues.map Event.call_clear ++ [Event.unlock])) ∧
      cleared (s'.trace.drop sj.trace.length) = sj.work_queues ∧
      (∀ (empty : σ → Prop) (wq : Ptr), wq ∈ sj.work_queues →
        (∀ st, empty ((H wq)._clear st)) → empty (s'.heap wq)) := by
  unfold WorkThreadPool.stop at h
  rw [← List.cons_append, run_append] at h
  split at h
  · cases h
  · rename_i sj hj
    simp only [run, step] at h
    split at h
    · cases h
    · rename_i s2 h2
      simp only [Except.ok.injEq] at h
      subst h
      have hstop : sj._stop = true := by
        simp only [run, step] at hj
        exact run_stop_mono H joined _ sj hj rfl
      simp only [WorkThreadPool.stop_end] at h2
      split at h2
      · rename_i hcond
        simp only [Except.ok.injEq] at h2
        subst h2
        obtain ⟨f1, f2, f3, f4, f5, f6, f7, f8, f9⟩ :=
          stop_clear_frame H sj.work_queues { sj with trace := sj.trace ++ [Event.lock] }
        refine ⟨by rw [f1]; exact hstop, sj, hj, hcond.2, by rw [f3], ?_, ?_, ?_⟩
        · simp only [f9]
          simp
        · simp only [f9]
          simp only [List.append_assoc, List.drop_left, List.singleton_append]
          have e1 : ∀ X, cleared (Event.lock :: X) = cleared X := fun _ => rfl
          rw [List.cons_append, e1, cleared_map_call_clear]
          simp [cleared]
        · intro empty wq hm hE
          exact stop_clear_heap_of_mem H wq empty hE _ _ hm
      · cases h2

theorem C2_stop_true_clears_all_witness :
    ∃ s', WorkThreadPool.stop (fun _ => fifo) true [Action.entry 0]
        { WorkThreadPool.construct 1 (fun _ => [1, 2, 3]) with
          work_queues := [7, 8], _threads := [Pc.started] } = .ok s' ∧
      s'._stop = true ∧ cleared s'.trace = [7, 8] ∧ s'.heap 7 = [] ∧ s'.heap 8 = [] :=
  ⟨_, rfl, (C2_stop_true_clears_all (fun _ => fifo) [Action.entry 0]
      { WorkThreadPool.construct 1 (fun _ => [1, 2, 3]) with
        work_queues := [7, 8], _threads := [Pc.started] } _ rfl).1, by decide, rfl, rfl⟩

/-! ## Pause -/

theorem pause_inv_construct {σ : Type} (n : Nat) (heap : Ptr → σ) :
    pause_inv (WorkThreadPool.construct n heap) := by
  refine ⟨?_, ?_, ?_⟩
  · simp [WorkThreadPool.construct, busy_replicate_created]
  · intro h
    simp [WorkThreadPool.construct] at h
  · intro h
    simp [WorkThreadPool.construct] at h

theorem pause_inv_entry {σ : Type} (H : Ptr → Hooks σ) (i : Nat) (s s' : WorkThreadPool σ)
    (hinv : pause_inv s) (h : WorkThreadPool.entry H i s = .ok s') : pause_inv s' := by
  obtain ⟨i1, i2, i3⟩ := hinv
  obtain ⟨_, e2, _, e4, e5, old, new, hget, hset, hcase⟩ := entry_spec H i s s' h
  have hb := busy_set s._threads i old new hget
  rw [← hset] at hb
  have hb' : ((busy s'._threads : Int) + (busy [old] : Int))
      = (busy s._threads : Int) + (busy [new] : Int) := by exact_mod_cast hb
  refine ⟨?_, ?_, ?_⟩
  · rcases hcase with ⟨hn, hp, _, _⟩ | ⟨hn, hp⟩
    · rw [hn] at hb'
      push_cast at hb'
      omega
    · rw [hn] at hb'
      push_cast at hb'
      omega
  · rw [e2, e4]
    exact i2
  · rw [e2, e5]
    intro hq
    obtain ⟨q1, q2⟩ := i3 hq
    refine ⟨q1, ?_⟩
    rcases hcase with ⟨_, _, hpa, _⟩ | ⟨hn, hp⟩
    · rw [q1] at hpa
      cases hpa
    · rw [hn] at hb'
      push_cast at hb'
      omega

theorem pause_inv_step {σ : Type} (H : Ptr → Hooks σ) (s s' : WorkThreadPool σ) (a : Action)
    (hinv : pause_inv s) (hu : a = Action.unpause → s.pausing = 0)
    (h : step H s a = .ok s') : pause_inv s' := by
  cases a with
  | entry i => exact pause_inv_entry H i s s' hinv h
  | delete_queue wq =>
    simp only [step, WorkQueue.destroy] at h
    split at h
    · cases h
    · simp only [Except.ok.injEq] at h
      subst h
      exact hinv
  | start =>
    simp only [step, WorkThreadPool.start] at h
    split at h
    · rename_i hall
      simp only [Except.ok.injEq] at h
      subst h
      obtain ⟨i1, i2, i3⟩ := hinv
      have hz := busy_eq_zero_of_all Pc.created rfl s._threads hall
      refine ⟨?_, i2, i3⟩
      simp only [busy_map_started]
      rw [i1, hz]
    · cases h
  | pause =>
    obtain ⟨i1, i2, i3⟩ := hinv
    simp only [step, WorkThreadPool.pause] at h
    split at h
    · cases h
    · split at h
      · simp only [Except.ok.injEq] at h
        subst h
        exact ⟨i1, fun _ => rfl, fun hq => ⟨rfl, (i3 hq).2⟩⟩
      · rename_i hp
        simp only [Except.ok.injEq] at h
        subst h
        exact ⟨i1, fun _ => rfl, fun _ => ⟨rfl, by simpa using hp⟩⟩
  | pause_wake =>
    obtain ⟨i1, i2, i3⟩ := hinv
    simp only [step, WorkThreadPool.pause_wake] at h
    split at h
    · rename_i hpos
      split at h
      · simp only [Except.ok.injEq] at h
        subst h
        exact ⟨i1, i2, i3⟩
      · rename_i hp
        simp only [Except.ok.injEq] at h
        subst h
        exact ⟨i1, fun _ => i2 hpos, fun _ => ⟨i2 hpos, by simpa using hp⟩⟩
    · cases h
  | pause_new =>
    obtain ⟨i1, i2, i3⟩ := hinv
    simp only [step, WorkThreadPool.pause_new] at h
    split at h
    · cases h
    · simp only [Except.ok.injEq] at h
      subst h
      exact ⟨i1, fun _ => rfl, fun hq => ⟨rfl, (i3 hq).2⟩⟩
  | unpause =>
    obtain ⟨i1, i2, i3⟩ := hinv
    have hz := hu rfl
    simp only [step, WorkThreadPool.unpause] at h
    split at h
    · simp only [Except.ok.injEq] at h
      subst h
      refine ⟨i1, ?_, ?_⟩
      · intro hc
        exact absurd hc (by simp only [hz]; decide)
      · intro hc
        cases hc
    · cases h
  | stop_begin =>
    simp only [step, WorkThreadPool.stop_begin, Except.ok.injEq] at h
    subst h
    exact hinv
  | stop_end b =>
    simp only [step, WorkThreadPool.stop_end] at h
    split at h
    · simp only [Except.ok.injEq] at h
      subst h
      obtain ⟨i1, i2, i3⟩ := hinv
      obtain ⟨f1, f2, f3, f4, f5, f6, f7, f8, f9⟩ :=
        stop_clear_frame H s.work_queues { s with trace := s.trace ++ [Event.lock] }
      refine ⟨?_, ?_, ?_⟩
      · show (WorkThreadPool.stop_clear H s.work_queues _).processing
          = ((busy (WorkThreadPool.stop_clear H s.work_queues _)._threads : Nat) : Int)
        rw [f5, f6]
        exact i1
      · show 0 < (WorkThreadPool.stop_clear H s.work_queues _).pausing →
          (WorkThreadPool.stop_clear H s.work_queues _)._pause = true
        rw [f7, f2]
        exact i2
      · show (WorkThreadPool.stop_clear H s.work_queues _).quiesced = true →
          (WorkThreadPool.stop_clear H s.work_queues _)._pause = true ∧
          (WorkThreadPool.stop_clear H s.work_queues _).processing = 0
        rw [f8, f2, f5]
        exact i3
    · cases h
  | new_queue wq =>
    simp only [step, Except.ok.injEq] at h
    subst h
    exact hinv
  | queue wq item =>
    simp only [step, Except.ok.injEq] at h
    subst h
    exact hinv
  | dequeue wq item =>
    simp only [step, Except.ok.injEq] at h
    subst h
    exact hinv
  | clear wq =>
    simp only [step, Except.ok.injEq] at h
    subst h
    exact hinv
  | kick =>
    simp only [step, Except.ok.injEq] at h
    subst h
    exact hinv

theorem pause_inv_run {σ : Type} (H : Ptr → Hooks σ) :
    ∀ (acts : List Action) (s s' : WorkThreadPool σ),
      pause_inv s → no_unpause_in_pause H s acts = true → run H s acts = .ok s' →
      pause_inv s' := by
  intro acts
  induction acts with
  | nil =>
    intro s s' hinv _ h
    simp only [run, Except.ok.injEq] at h
    subst h
    exact hinv
  | cons a acts ih =>
    intro s s' hinv hu h
    simp only [run] at h
    simp only [no_unpause_in_pause, Bool.and_eq_true, decide_eq_true_eq] at hu
    obtain ⟨hu1, hu2⟩ := hu
    split at h
    · cases h
    · rename_i s1 h1
      rw [h1] at hu2
      exact ih s1 s' (pause_inv_step H s s1 a hinv hu1 h1) hu2 h

/-- Claim C4, on the code: a pool with two workers; both are inside a
`_process` hook when `pause()` is called and waits; the first worker comes
back and signals `_wait_cond`; before the caller of `pause()` has the lock
again another thread runs `unpause()`; the second worker comes back, finds
nothing and waits; `pause()` sees `processing == 0` and returns with `_pause`
false; an item is queued and a worker starts its `_process` hook. So a worker
is inside a `_process` hook after the return of `pause()` and before the next
`unpause()`. -/
theorem C4_pause_quiescence_counterexample :
    ¬ (∀ (acts : List Action) (s : WorkThreadPool (List Item)),
      run (fun _ => fifo) (WorkThreadPool.construct 2 (fun _ => [1, 2])) acts = .ok s →
      s.quiesced = true → busy s._threads = 0) := by
  intro h
  have h1 := h
    [Action.new_queue 7, Action.start, Action.entry 0, Action.entry 1, Action.pause,
      Action.entry 0, Action.unpause, Action.entry 1, Action.pause_wake, Action.queue 7 3,
      Action.entry 0] _ rfl rfl
  revert h1
  decide

/-- Claim C4, amended. Take a pool with `n` workers and any run of it:
workers in `entry`, threads calling `pause`, `pause_new`, `unpause` and
`stop`, threads registering queues and queueing items, each stretch of code
between two releases of the lock one step; provided that no `unpause()` runs
while a call of `pause()` is waiting. In every state reached, if `pause()` has
returned and `unpause()` has not run since, no worker is inside a `_process`
hook, `_pause` is set and `processing` is zero; and whenever `_pause` is set,
a step of a worker puts no further worker inside a `_process` hook. -/
theorem C4_pause_quiescence {σ : Type} (H : Ptr → Hooks σ) (n : Nat) (heap : Ptr → σ)
    (acts : List Action) (s : WorkThreadPool σ)
    (h : run H (WorkThreadPool.construct n heap) acts = .ok s)
    (hu : no_unpause_in_pause H (WorkThreadPool.construct n heap) acts = true) :
    (s.quiesced = true → busy s._threads = 0 ∧ s._pause = true ∧ s.processing = 0) ∧
    (s._pause = true → ∀ i s', WorkThreadPool.entry H i s = .ok s' →
      busy s'._threads ≤ busy s._threads ∧ s'._pause = true ∧
      (s.quiesced = true → s'.quiesced = true ∧ busy s'._threads = 0)) := by
  obtain ⟨i1, i2, i3⟩ := pause_inv_run H acts _ s (pause_inv_construct n heap) hu h
  refine ⟨?_, ?_⟩
  · intro hq
    obtain ⟨q1, q2⟩ := i3 hq
    refine ⟨?_, q1, q2⟩
    rw [q2] at i1
    exact_mod_cast i1.symm
  · intro hp i s' he
    obtain ⟨_, e2, _, e4, e5, old, new, hget, hset, hcase⟩ := entry_spec H i s s' he
    have hb := busy_set s._threads i old new hget
    rw [← hset] at hb
    have hnew : busy [new] = 0 := by
      rcases hcase with ⟨_, _, hpa, _⟩ | ⟨hn, _⟩
      · rw [hp] at hpa
        cases hpa
      · exact hn
    refine ⟨by omega, by rw [e2]; exact hp, ?_⟩
    intro hq
    obtain ⟨q1, q2⟩ := i3 hq
    rw [q2] at i1
    have : busy s._threads = 0 := by exact_mod_cast i1.symm
    exact ⟨by rw [e5]; exact hq, by omega⟩

theorem C4_pause_quiescence_witness :
    no_unpause_in_pause (fun _ => fifo) (WorkThreadPool.construct 2 (fun _ => [1, 2]))
      example_pause_run = true ∧
    ∃ s, run (fun _ => fifo) (WorkThreadPool.construct 2 (fun _ => [1, 2]))
        example_pause_run = .ok s ∧
      s.quiesced = true ∧ s.heap 7 = [2, 3] ∧ processed s.trace = [7] ∧
      (busy s._threads = 0 ∧ s._pause = true ∧ s.processing = 0) :=
  ⟨rfl, _, rfl, rfl, rfl, by decide,
    (C4_pause_quiescence (fun _ => fifo) 2 (fun _ => [1, 2]) example_pause_run _ rfl rfl).1 rfl⟩

/-! ## Round robin -/

theorem processed_append : ∀ (l1 l2 : List Event),
    processed (l1 ++ l2) = processed l1 ++ processed l2 := by
  intro l1
  induction l1 with
  | nil => intro l2; rfl
  | cons e l1 ih =>
    intro l2
    cases e <;> simp [processed, ih]

theorem entry_sweep_pick {σ : Type} (H : Ptr → Hooks σ) (tries : Nat) (s : WorkThreadPool σ)
    (x : Ptr) (item : Item) (st : σ) (hlen : s.work_queues.length ≠ 0)
    (hx : s.work_queues.get? ((s.last_work_queue + 1) % s.work_queues.length) = some x)
    (hd : (H x)._dequeue (s.heap x) = (some item, st)) :
    WorkThreadPool.entry_sweep H (tries + 1) s = .ok
      ({ s with
          last_work_queue := (s.last_work_queue + 1) % s.work_queues.length
          processing := s.processing + 1
          heap := Function.update s.heap x st
          trace := s.trace ++ [Event.call_dequeue x (some item), Event.unlock] },
        some [Event.call_process x item, Event.lock]) := by
  simp only [WorkThreadPool.entry_sweep, hlen, if_false, hx, WorkQueue._try_process, hd, if_true]

theorem entry_sweep_skip {σ : Type} (H : Ptr → Hooks σ) (tries : Nat) (s : WorkThreadPool σ)
    (x : Ptr) (hlen : s.work_queues.length ≠ 0)
    (hx : s.work_queues.get? ((s.last_work_queue + 1) % s.work_queues.length) = some x)
    (hd : (H x)._dequeue (s.heap x) = (none, s.heap x)) :
    WorkThreadPool.entry_sweep H (tries + 1) s = WorkThreadPool.entry_sweep H tries
      { s with
        last_work_queue := (s.last_work_queue + 1) % s.work_queues.length
        trace := s.trace ++ [Event.call_dequeue x none] } := by
  simp only [WorkThreadPool.entry_sweep, hlen, if_false, hx, WorkQueue._try_process, hd,
    Function.update_eq_self, add_sub_cancel_right]
  simp

theorem entry_sweep_all_empty {σ : Type} (H : Ptr → Hooks σ) :
    ∀ (tries : Nat) (s : WorkThreadPool σ), s.work_queues.length ≠ 0 →
      (∀ wq ∈ s.work_queues, (H wq)._dequeue (s.heap wq) = (none, s.heap wq)) →
      ∃ s', WorkThreadPool.entry_sweep H tries s = .ok (s', none) ∧
        s'._stop = s._stop ∧ s'._pause = s._pause ∧ s'.work_queues = s.work_queues ∧
        s'.heap = s.heap ∧ s'._threads = s._threads ∧
        processed s'.trace = processed s.trace := by
  intro tries
  induction tries with
  | zero =>
    intro s _ _
    exact ⟨s, rfl, rfl, rfl, rfl, rfl, rfl, rfl⟩
  | succ n ih =>
    intro s hlen hall
    have hlt : (s.last_work_queue + 1) % s.work_queues.length < s.work_queues.length :=
      Nat.mod_lt _ (Nat.pos_of_ne_zero hlen)
    have hx : s.work_queues.get? ((s.last_work_queue + 1) % s.work_queues.length)
        = some (s.work_queues.get ⟨_, hlt⟩) := by
      rw [List.get?_eq_getElem?, List.getElem?_eq_getElem hlt]
      rfl
    have hd := hall _ (List.get_mem s.work_queues _ hlt)
    rw [entry_sweep_skip H n s _ hlen hx hd]
    obtain ⟨s', h1, h2, h3, h4, h5, h6, h7⟩ := ih
      { s with
        last_work_queue := (s.last_work_queue + 1) % s.work_queues.length
        trace := s.trace ++ [Event.call_dequeue (s.work_queues.get ⟨_, hlt⟩) none] } hlen hall
    refine ⟨s', h1, h2, h3, h4, h5, h6, ?_⟩
    rw [h7]
    simp [processed_append, processed]

theorem entry_single {σ : Type} (H : Ptr → Hooks σ) (s : WorkThreadPool σ)
    (hs : single_worker s) :
    ∃ s0, WorkThreadPool.entry H 0 s = WorkThreadPool.entry_loop H 0 s0 ∧
      s0._stop = s._stop ∧ s0._pause = s._pause ∧ s0.work_queues = s.work_queues ∧
      s0.last_work_queue = s.last_work_queue ∧ s0.heap = s.heap ∧
      s0._threads = s._threads ∧ processed s0.trace = served s := by
  obtain ⟨h1, h2, pc, hpc, hc, he⟩ := hs
  cases pc with
  | created => exact absurd rfl hc
  | exited => exact absurd rfl he
  | started =>
    refine ⟨{ s with trace := s.trace ++ [Event.lock] }, ?_, rfl, rfl, rfl, rfl, rfl, rfl, ?_⟩
    · simp [WorkThreadPool.entry, hpc]
    · simp [served, hpc, pending, processed_append, processed]
  | waiting =>
    refine ⟨s, ?_, rfl, rfl, rfl, rfl, rfl, rfl, ?_⟩
    · simp [WorkThreadPool.entry, hpc]
    · simp [served, hpc, pending]
  | in_process after =>
    refine ⟨{ s with processing := s.processing - 1, trace := s.trace ++ after }, ?_, rfl, rfl,
      rfl, rfl, rfl, rfl, ?_⟩
    · simp [WorkThreadPool.entry, hpc, WorkThreadPool.entry_resume, h2]
    · simp [served, hpc, pending]

theorem entry_single_pick {σ : Type} (H : Ptr → Hooks σ) (s : WorkThreadPool σ)
    (x : Ptr) (item : Item) (st : σ) (hs : single_worker s)
    (hlen : s.work_queues.length ≠ 0)
    (hx : s.work_queues.get? ((s.last_work_queue + 1) % s.work_queues.length) = some x)
    (hd : (H x)._dequeue (s.heap x) = (some item, st)) :
    ∃ s', WorkThreadPool.entry H 0 s = .ok s' ∧ single_worker s' ∧
      s'.work_queues = s.work_queues ∧
      s'.last_work_queue = (s.last_work_queue + 1) % s.work_queues.length ∧
      s'.heap = Function.update s.heap x st ∧ served s' = served s ++ [x] := by
  obtain ⟨s0, e0, e1, e2, e3, e4, e5, e6, e7⟩ := entry_single H s hs
  obtain ⟨h1, h2, pc, hpc, hc, he⟩ := hs
  obtain ⟨n, hn⟩ : ∃ n, s0.work_queues.length = n + 1 :=
    ⟨s0.work_queues.length - 1, by rw [e3]; omega⟩
  have hsw := entry_sweep_pick H n s0 x item st (by rw [e3]; exact hlen)
    (by rw [e3, e4]; exact hx) (by rw [e5]; exact hd)
  rw [e0]
  unfold WorkThreadPool.entry_loop
  rw [if_neg (by rw [e1, h1]; simp), if_pos ⟨by rw [e2, h2], by rw [e3]; exact hlen⟩, hn, hsw]
  refine ⟨_, rfl, ⟨by simpa [e1] using h1, by simpa [e2] using h2,
    Pc.in_process [Event.call_process x item, Event.lock], by simp [e6, hpc],
    by simp, by simp⟩, e3, by simp [e3, e4], by simp [e5], ?_⟩
  simp [served, e6, hpc, pending, processed_append, processed, e7]

theorem entry_single_none {σ : Type} (H : Ptr → Hooks σ) (s : WorkThreadPool σ)
    (hs : single_worker s) (hlen : s.work_queues.length ≠ 0)
    (hall : ∀ wq ∈ s.work_queues, (H wq)._dequeue (s.heap wq) = (none, s.heap wq)) :
    ∃ s', WorkThreadPool.entry H 0 s = .ok s' ∧ s'._threads = [Pc.waiting] ∧
      s'._stop = false ∧ s'._pause = false ∧
      s'.work_queues = s.work_queues ∧ s'.heap = s.heap ∧ processed s'.trace = served s := by
  obtain ⟨s0, e0, e1, e2, e3, e4, e5, e6, e7⟩ := entry_single H s hs
  obtain ⟨h1, h2, pc, hpc, hc, he⟩ := hs
  obtain ⟨s1, w1, w2, w3, w4, w5, w6, w7⟩ := entry_sweep_all_empty H s0.work_queues.length s0
    (by rw [e3]; exact hlen) (by rw [e3, e5]; exact hall)
  rw [e0]
  unfold WorkThreadPool.entry_loop
  rw [if_neg (by rw [e1, h1]; simp), if_pos ⟨by rw [e2, h2], by rw [e3]; exact hlen⟩, w1]
  refine ⟨_, rfl, by simp [w6, e6, hpc], by simp [w2, e1, h1], by simp [w3, e2, h2],
    by simp [w4, e3], by simp [w5, e5], ?_⟩
  simp [processed_append, processed, w7, e7]

theorem alternate_succ_succ (x y : Ptr) (n : Nat) :
    alternate x y (n + 2) = x :: y :: alternate x y n := rfl

theorem alternate_length (x y : Ptr) : ∀ (n : Nat), (alternate x y n).length = n
  | 0 => rfl
  | 1 => rfl
  | n + 2 => by
    rw [alternate_succ_succ]
    simp [alternate_length x y n]

theorem alternate_chain (x y : Ptr) (hxy : x ≠ y) :
    ∀ (n : Nat), List.Chain' (fun p q => p ≠ q) (alternate x y n) ∧
      (alternate x y n).head? = (if n = 0 then none else some x)
  | 0 => by simp [alternate]
  | 1 => by simp [alternate]
  | n + 2 => by
    obtain ⟨h1, h2⟩ := alternate_chain x y hxy n
    rw [alternate_succ_succ]
    refine ⟨?_, by simp⟩
    rw [List.chain'_cons, List.chain'_cons']
    refine ⟨hxy, ?_, h1⟩
    intro z hz
    rw [h2] at hz
    split at hz
    · cases hz
    · simp only [Option.mem_def, Option.some.injEq] at hz
      subst hz
      exact hxy.symm

theorem alternate_count (x y : Ptr) (hxy : x ≠ y) :
    ∀ (k : Nat), (alternate x y (2 * k)).count x = k ∧ (alternate x y (2 * k)).count y = k
  | 0 => by simp [alternate]
  | k + 1 => by
    obtain ⟨h1, h2⟩ := alternate_count x y hxy k
    rw [show 2 * (k + 1) = 2 * k + 2 from by ring, alternate_succ_succ]
    simp [List.count_cons, h1, h2, hxy, hxy.symm]

theorem two_queue_rounds {σ : Type} (H : Ptr → Hooks σ) (a b x y : Ptr) (hxy : x ≠ y) :
    ∀ (K : Nat) (s : WorkThreadPool σ), single_worker s → s.work_queues = [a, b] →
      ((s.last_work_queue + 1) % 2 = 0 ∧ x = a ∧ y = b ∨
        (s.last_work_queue + 1) % 2 = 1 ∧ x = b ∧ y = a) →
      holds (H x) K (s.heap x) → holds (H y) K (s.heap y) →
      ∃ s', run H s (List.replicate (2 * K) (Action.entry 0)) = .ok s' ∧
        single_worker s' ∧ s'.work_queues = [a, b] ∧
        served s' = served s ++ alternate x y (2 * K) ∧
        holds (H x) 0 (s'.heap x) ∧ holds (H y) 0 (s'.heap y) := by
  intro K
  induction K with
  | zero =>
    intro s hs hl _ hx hy
    exact ⟨s, rfl, hs, hl, by simp [alternate], hx, hy⟩
  | succ K ih =>
    intro s hs hl hc hx hy
    obtain ⟨⟨item1, hi1⟩, hx'⟩ := hx
    obtain ⟨⟨item2, hi2⟩, hy'⟩ := hy
    have hlen : s.work_queues.length ≠ 0 := by rw [hl]; simp
    have hgx : s.work_queues.get? ((s.last_work_queue + 1) % s.work_queues.length) = some x := by
      rw [hl]
      rcases hc with ⟨h0, rfl, rfl⟩ | ⟨h0, rfl, rfl⟩ <;> simp [h0]
    obtain ⟨s1, r1, sw1, l1, c1, hp1, sv1⟩ := entry_single_pick H s x item1 _ hs hlen hgx
      (Prod.ext hi1 rfl)
    have hlen1 : s1.work_queues.length ≠ 0 := by rw [l1]; exact hlen
    have hgy : s1.work_queues.get? ((s1.last_work_queue + 1) % s1.work_queues.length)
        = some y := by
      rw [l1, c1, hl]
      rcases hc with ⟨h0, rfl, rfl⟩ | ⟨h0, rfl, rfl⟩ <;> simp [h0]
    have hy1 : s1.heap y = s.heap y := by
      rw [hp1]
      simp [Function.update, hxy.symm]
    obtain ⟨s2, r2, sw2, l2, c2, hp2, sv2⟩ := entry_single_pick H s1 y item2 _ sw1 hlen1 hgy
      (Prod.ext (by rw [hy1]; exact hi2) rfl)
    have hc2 : (s2.last_work_queue + 1) % 2 = 0 ∧ x = a ∧ y = b ∨
        (s2.last_work_queue + 1) % 2 = 1 ∧ x = b ∧ y = a := by
      rw [c2, c1, l1, hl]
      simp only [List.length_cons, List.length_nil, Nat.zero_add, Nat.reduceAdd]
      rcases hc with ⟨h0, h1, h2⟩ | ⟨h0, h1, h2⟩
      · exact Or.inl ⟨by omega, h1, h2⟩
      · exact Or.inr ⟨by omega, h1, h2⟩
    have hx2 : holds (H x) K (s2.heap x) := by
      rw [hp2, hp1]
      simpa [Function.update, hxy] using hx'
    have hy2 : holds (H y) K (s2.heap y) := by
      rw [hp2, hy1]
      simpa [Function.update] using hy'
    obtain ⟨s', r', sw', l', sv', hx0, hy0⟩ := ih s2 sw2 (by rw [l2, l1, hl]) hc2 hx2 hy2
    refine ⟨s', ?_, sw', l', ?_, hx0, hy0⟩
    · rw [show 2 * (K + 1) = 2 * K + 2 from by ring]
      simp only [List.replicate_succ, run, step, r1, r2]
      exact r'
    · rw [sv', sv2, sv1, show 2 * (K + 1) = 2 * K + 2 from by ring, alternate_succ_succ]
      simp

/-- Claim C5. A running pool with one worker, not paused, whose queue list is
two distinct queues `a` and `b` holding `K` items each, with no other thread
taking a step: after `2 * K + 1` steps the worker waits on `_cond`, both
queues hold nothing, and the `2 * K` process hooks it ran in between went to
the two queues in strict alternation, starting with the queue after the
cursor, `K` hooks to each queue. -/
theorem C5_round_robin_two_queues {σ : Type} (H : Ptr → Hooks σ) (K : Nat) (a b : Ptr)
    (s : WorkThreadPool σ) (hab : a ≠ b) (hs : single_worker s)
    (hl : s.work_queues = [a, b])
    (ha : holds (H a) K (s.heap a)) (hb : holds (H b) K (s.heap b)) :
    ∃ s' x y, run H s (List.replicate (2 * K + 1) (Action.entry 0)) = .ok s' ∧
      (x = (if (s.last_work_queue + 1) % 2 = 0 then a else b)) ∧
      (y = (if (s.last_work_queue + 1) % 2 = 0 then b else a)) ∧
      processed s'.trace = served s ++ alternate x y (2 * K) ∧
      List.Chain' (fun p q => p ≠ q) (alternate x y (2 * K)) ∧
      (alternate x y (2 * K)).length = 2 * K ∧
      (alternate x y (2 * K)).count a = K ∧ (alternate x y (2 * K)).count b = K ∧
      s'._threads = [Pc.waiting] ∧ s'.work_queues = [a, b] ∧
      holds (H a) 0 (s'.heap a) ∧ holds (H b) 0 (s'.heap b) := by
  have key : ∀ x y, x ≠ y →
      ((s.last_work_queue + 1) % 2 = 0 ∧ x = a ∧ y = b ∨
        (s.last_work_queue + 1) % 2 = 1 ∧ x = b ∧ y = a) →
      ∃ s', run H s (List.replicate (2 * K + 1) (Action.entry 0)) = .ok s' ∧
        processed s'.trace = served s ++ alternate x y (2 * K) ∧
        s'._threads = [Pc.waiting] ∧ s'.work_queues = [a, b] ∧
        holds (H x) 0 (s'.heap x) ∧ holds (H y) 0 (s'.heap y) := by
    intro x y hxy hc
    have hx : holds (H x) K (s.heap x) := by
      rcases hc with ⟨_, rfl, rfl⟩ | ⟨_, rfl, rfl⟩
      · exact ha
      · exact hb
    have hy : holds (H y) K (s.heap y) := by
      rcases hc with ⟨_, rfl, rfl⟩ | ⟨_, rfl, rfl⟩
      · exact hb
      · exact ha
    obtain ⟨s1, r1, sw1, l1, sv1, hx0, hy0⟩ := two_queue_rounds H a b x y hxy K s hs hl hc hx hy
    have hall : ∀ wq ∈ s1.work_queues, (H wq)._dequeue (s1.heap wq) = (none, s1.heap wq) := by
      intro wq hm
      rw [l1] at hm
      simp only [List.mem_cons, List.mem_singleton, List.not_mem_nil, or_false] at hm
      rcases hc with ⟨_, rfl, rfl⟩ | ⟨_, rfl, rfl⟩ <;> rcases hm with rfl | rfl <;>
        first | exact hx0 | exact hy0
    obtain ⟨s2, r2, t2, _, _, l2, hp2, pr2⟩ := entry_single_none H s1 sw1
      (by rw [l1]; simp) hall
    refine ⟨s2, ?_, by rw [pr2, sv1], t2, by rw [l2, l1], by rw [hp2]; exact hx0,
      by rw [hp2]; exact hy0⟩
    rw [List.replicate_succ', run_append, r1]
    simp only [run, step, r2]
  by_cases h0 : (s.last_work_queue + 1) % 2 = 0
  · obtain ⟨s', r, p, t, l, hx0, hy0⟩ := key a b hab (Or.inl ⟨h0, rfl, rfl⟩)
    refine ⟨s', a, b, r, by simp [h0], by simp [h0], p, (alternate_chain a b hab _).1,
      alternate_length _ _ _, (alternate_count a b hab K).1, (alternate_count a b hab K).2,
      t, l, hx0, hy0⟩
  · have h1 : (s.last_work_queue + 1) % 2 = 1 := by omega
    obtain ⟨s', r, p, t, l, hx0, hy0⟩ := key b a hab.symm (Or.inr ⟨h1, rfl, rfl⟩)
    refine ⟨s', b, a, r, by simp [h0], by simp [h0], p, (alternate_chain b a hab.symm _).1,
      alternate_length _ _ _, (alternate_count b a hab.symm K).2,
      (alternate_count b a hab.symm K).1, t, l, hy0, hx0⟩

theorem C5_round_robin_two_queues_witness :
    (7 : Ptr) ≠ 8 ∧ single_worker example_pool ∧
    holds fifo 2 (example_pool.heap 7) ∧ holds fifo 2 (example_pool.heap 8) ∧
    (∃ s', run (fun _ => fifo) example_pool (List.replicate 5 (Action.entry 0)) = .ok s' ∧
      processed s'.trace = [8, 7, 8, 7] ∧ s'.heap 7 = [] ∧ s'.heap 8 = []) ∧
    (∃ s' x y, run (fun _ => fifo) example_pool (List.replicate (2 * 2 + 1) (Action.entry 0))
        = .ok s' ∧
      (x = (if (example_pool.last_work_queue + 1) % 2 = 0 then 7 else 8)) ∧
      (y = (if (example_pool.last_work_queue + 1) % 2 = 0 then 8 else 7)) ∧
      processed s'.trace = served example_pool ++ alternate x y (2 * 2) ∧
      List.Chain' (fun p q => p ≠ q) (alternate x y (2 * 2)) ∧
      (alternate x y (2 * 2)).length = 2 * 2 ∧
      (alternate x y (2 * 2)).count 7 = 2 ∧ (alternate x y (2 * 2)).count 8 = 2 ∧
      s'._threads = [Pc.waiting] ∧ s'.work_queues = [7, 8] ∧
      holds fifo 0 (s'.heap 7) ∧ holds fifo 0 (s'.heap 8)) :=
  ⟨by decide, ⟨rfl, rfl, Pc.started, rfl, by decide, by decide⟩,
    ⟨⟨10, rfl⟩, ⟨11, rfl⟩, rfl⟩, ⟨⟨20, rfl⟩, ⟨21, rfl⟩, rfl⟩,
    ⟨_, rfl, by decide, rfl, rfl⟩,
    C5_round_robin_two_queues (fun _ => fifo) 2 7 8 example_pool (by decide)
      ⟨rfl, rfl, Pc.started, rfl, by decide, by decide⟩ rfl
      ⟨⟨10, rfl⟩, ⟨11, rfl⟩, rfl⟩ ⟨⟨20, rfl⟩, ⟨21, rfl⟩, rfl⟩⟩
